import Mathlib

/-!
Verification of the RedditFlow ETL pipeline core against its specification.

The Python source (src/reddit/etl/extractor.py, src/reddit/etl/loader.py) is
shallowly embedded below: pure fragments become Lean functions, the stateful
classes become explicit state passing, wall-clock time is modelled as a
rational number of seconds, and the document store is modelled as a list of
documents (field/value association lists), following the store's documented
upsert-by-key semantics.
-/

namespace RedditFlow

/-! ## Rate governor (class RateLimiter, extractor.py lines 18-52)

Timestamps are rationals (seconds).  `wait_if_needed` receives the current
time `now` and returns the time at which it returns to the caller together
with the updated limiter state.  Mirroring the source exactly: the pruned
window keeps entries with `now - r < 60`; if the window is full the caller
sleeps `60 - (now - requests[0])` seconds when positive; the *entry*
timestamp `now` is appended to the window (the code appends the value of
`datetime.now()` captured before the sleep). -/

structure RateLimiter where
  rpm : ℕ
  requests : List ℚ
  total_requests : ℕ

def wait_if_needed (st : RateLimiter) (now : ℚ) : ℚ × RateLimiter :=
  let reqs := st.requests.filter (fun r => decide (now - r < 60))
  let ret :=
    if st.rpm ≤ reqs.length then
      match reqs.head? with
      | some oldest =>
        let sleep_time := 60 - (now - oldest)
        if 0 < sleep_time then now + sleep_time else now
      | none => now
    else now
  (ret, { st with requests := reqs ++ [now], total_requests := st.total_requests + 1 })

/-- Issue `n` calls back to back: each call is issued at the instant
`wait_if_needed` returns, and the next `wait_if_needed` starts at that same
instant.  Returns the list of actual call-issue times. -/
def issueCalls : RateLimiter → ℚ → ℕ → List ℚ × RateLimiter
  | st, _, 0 => ([], st)
  | st, t, n + 1 =>
    let p := wait_if_needed st t
    let rest := issueCalls p.2 p.1 n
    (p.1 :: rest.1, rest.2)

/-- Number of call-issue times falling in the rolling one-minute window
ending at time `t` (the window notion used by the source's own pruning:
an entry `u` is inside when `t - u < 60`). -/
def windowCount (times : List ℚ) (t : ℚ) : ℕ :=
  (times.filter (fun u => decide (t - u < 60) && decide (u ≤ t))).length

def rl0 : RateLimiter := { rpm := 1, requests := [], total_requests := 0 }

/-! ## Checkpoint store (class CheckpointManager, extractor.py lines 55-96)

The durable file is modelled as `Option (Option CheckpointData)`:
`none` = file absent, `some none` = file present but unparsable,
`some (some d)` = file parses to `d` (JSON round-tripping is faithful). -/

structure CheckpointData where
  processed_posts : List String
  last_run : Option String
deriving DecidableEq

def emptyCheckpoint : CheckpointData := { processed_posts := [], last_run := none }

/-- `CheckpointManager._load`: read and parse the durable storage; any
failure (missing file, unparsable content) falls back to the empty state. -/
def checkpoint_load : Option (Option CheckpointData) → CheckpointData
  | some (some d) => d
  | _ => emptyCheckpoint

/-- `CheckpointManager.save(post_id)`: append the id to the processed list,
stamp `last_run`, and return the new in-memory state (which is also what is
written, in full, to the durable file). -/
def checkpoint_save (d : CheckpointData) (post_id : String) (nowIso : String) : CheckpointData :=
  { processed_posts := d.processed_posts ++ [post_id], last_run := some nowIso }

/-- The durable content written by `save` (json.dump of the whole state). -/
def checkpoint_write (d : CheckpointData) : Option (Option CheckpointData) := some (some d)

/-- `CheckpointManager.is_processed(post_id)`: membership test on the list. -/
def is_processed (d : CheckpointData) (post_id : String) : Bool :=
  d.processed_posts.contains post_id

def idAbc : String := "abc"
def ts0 : String := "2026-01-01T00:00:00"
def ts1 : String := "2026-01-01T00:00:01"

/-! ## Depth resolver (RedditExtractor._calculate_comment_depth, lines 293-307)

Reddit identifier strings are embedded as `List Char` so that the Python
string operations used by the resolver (`startswith`, `replace`, truthiness)
are fully explicit.  `comment_map` maps a comment id to that comment's
`parent_id` fullname. -/

abbrev RId := List Char

def t1Tag : RId := ['t', '1', '_']

/-- Python `s.startswith(p)`. -/
def pyStartsWith (s p : RId) : Bool := p.isPrefixOf s

/-- Python `s.replace('t1_', '')`: remove every (leftmost, non-overlapping)
occurrence of the three characters `t`, `1`, `_`, scanning left to right. -/
def stripT1 : RId → RId
  | [] => []
  | [c] => [c]
  | [c, c2] => [c, c2]
  | c :: c2 :: c3 :: rest =>
    if c = 't' ∧ c2 = '1' ∧ c3 = '_' then stripT1 rest
    else c :: stripT1 (c2 :: c3 :: rest)

/-- Whether the characters `t`, `1`, `_` occur consecutively anywhere in `s`
(so that Python's `replace` would touch more than a leading tag). -/
def hasT1Sub : RId → Bool
  | [] => false
  | c :: s => t1Tag.isPrefixOf (c :: s) || hasT1Sub s

abbrev CommentMap := List (RId × RId)

/-- Python `parent_id in comment_map` / `comment_map[parent_id]` (dict lookup). -/
def lookupMap (m : CommentMap) (k : RId) : Option RId := m.lookup k

/-- The while-loop of `_calculate_comment_depth`, with the accumulated depth
as an argument.  The loop runs while the current parent reference is truthy
(non-empty), has the comment-type prefix `t1_`, and `depth < 50`
(`max_iterations`); a reference whose stripped id is absent from the lookup
table breaks out, returning the depth accumulated so far. -/
def depthGo (m : CommentMap) (current_parent : RId) (depth : ℕ) : ℕ :=
  if h : current_parent ≠ [] ∧ pyStartsWith current_parent t1Tag = true ∧ depth < 50 then
    match lookupMap m (stripT1 current_parent) with
    | some p => depthGo m p (depth + 1)
    | none => depth
  else depth
termination_by 50 - depth
decreasing_by exact Nat.sub_succ_lt_self 50 depth h.2.2

/-- `RedditExtractor._calculate_comment_depth(comment, comment_map)`; the
comment enters only through its `parent_id` attribute. -/
def calculate_comment_depth (parent_id : RId) (m : CommentMap) : ℕ :=
  depthGo m parent_id 0

/-- Fuel-indexed twin of `depthGo` (structurally recursive, so concrete runs
evaluate inside the kernel); it agrees with `depthGo` whenever
`50 - depth ≤ fuel`. -/
def depthGoFuel (m : CommentMap) : ℕ → RId → ℕ → ℕ
  | 0, _, depth => depth
  | fuel + 1, current_parent, depth =>
    if current_parent ≠ [] ∧ pyStartsWith current_parent t1Tag = true ∧ depth < 50 then
      match lookupMap m (stripT1 current_parent) with
      | some p => depthGoFuel m fuel p (depth + 1)
      | none => depth
    else depth

/-- A depth certificate for a parent-reference string: `R pid` is the true
parent-chain length from reference `pid` up to the item root.  `validRefB`
checks the one-step consistency of the certificate at `pid`: a comment-type
reference `t1_<p>` must have `p` free of further `t1_` occurrences (so ids
are well formed), `p` present in the lookup table, and chain length one more
than its parent's; any other reference resolves to the item, chain length 0.
A certificate satisfying this everywhere exists exactly for the valid
forests of the specification (parents present, no cycles). -/
def validRefB (m : CommentMap) (R : RId → ℕ) (pid : RId) : Bool :=
  if pyStartsWith pid t1Tag then
    !hasT1Sub (pid.drop 3) &&
      (match lookupMap m (pid.drop 3) with
       | some q => decide (R pid = R q + 1)
       | none => false)
  else decide (R pid = 0)

/-- The whole lookup table is a valid forest under certificate `R`:
comment ids are pairwise distinct (the source builds a Python dict) and
every stored parent reference is consistent. -/
def validMapB (m : CommentMap) (R : RId → ℕ) : Bool :=
  decide ((m.map Prod.fst).Nodup) && m.all (fun pr => validRefB m R pr.2)

/-! Concrete forests used as witnesses and the claim-C3 counterexample: a
two-node forest, and a straight chain whose deepest comment has true depth
51, one beyond the iteration ceiling. -/

def cidChain (n : ℕ) : RId := ['c', Char.ofNat (65 + n)]

def t3Root : RId := ['t', '3', '_', 'x']

/-- Chain: comment `cidChain n` has parent `t1_<cidChain (n+1)>` for `n < 50`
and `cidChain 50` is a direct reply to the item. -/
def chainMap : CommentMap :=
  (List.range 51).map
    (fun n => (cidChain n, if n = 50 then t3Root else t1Tag ++ cidChain (n + 1)))

def chainPid : RId := t1Tag ++ cidChain 0

def chainIdx (p : RId) : ℕ :=
  match p with
  | ['c', ch] => ch.toNat - 65
  | _ => 0

/-- Certificate for `chainMap`: reference `t1_<cidChain n>` has chain length
`51 - n`; every other reference resolves to the item directly. -/
def chainR : RId → ℕ :=
  fun pid => if pyStartsWith pid t1Tag then 51 - chainIdx (pid.drop 3) else 0

def pairMap : CommentMap := [(['a'], t3Root)]

def pairPid : RId := t1Tag ++ ['a']

def pairR : RId → ℕ := fun pid => if pid = pairPid then 1 else 0

/-! ## Retry policy (RedditExtractor._api_call_with_retry, lines 141-172)

One remote invocation is a function from the (0-based) attempt number to an
outcome; the embedding mirrors the `for attempt in range(max_retries)` loop
and its four `except` arms, accumulating the seconds slept in backoff and
the `rate_limit_waits` / `errors` counters.  The initial pass through the
rate limiter happens before the loop and sleeps no backoff time. -/

inductive ApiOutcome (α : Type) where
  | ok (v : α)
  | tooManyRequests
  | serverError
  | requestError
  | otherError
deriving DecidableEq

def ApiOutcome.isOk {α : Type} : ApiOutcome α → Bool
  | .ok _ => true
  | _ => false

structure RetryStats where
  waited : ℕ
  errors : ℕ
  rate_limit_waits : ℕ
deriving DecidableEq

def retryGo {α : Type} (f : ℕ → ApiOutcome α) (max_retries : ℕ) (attempt : ℕ)
    (st : RetryStats) : Option α × RetryStats :=
  if h : attempt < max_retries then
    match f attempt with
    | .ok v => (some v, st)
    | .tooManyRequests =>
      retryGo f max_retries (attempt + 1)
        { st with
          waited := st.waited + 60 * (attempt + 1)
          rate_limit_waits := st.rate_limit_waits + 1 }
    | .serverError =>
      retryGo f max_retries (attempt + 1)
        { st with waited := st.waited + (if attempt < max_retries - 1 then 30 else 0) }
    | .requestError =>
      retryGo f max_retries (attempt + 1)
        { st with waited := st.waited + (if attempt < max_retries - 1 then 2 ^ attempt else 0) }
    | .otherError =>
      if attempt = max_retries - 1 then (none, { st with errors := st.errors + 1 })
      else retryGo f max_retries (attempt + 1) st
  else (none, st)
termination_by max_retries - attempt
decreasing_by
  all_goals exact Nat.sub_succ_lt_self max_retries attempt h

/-- `RedditExtractor._api_call_with_retry(func, max_retries=3)`. -/
def api_call_with_retry {α : Type} (f : ℕ → ApiOutcome α) (max_retries : ℕ := 3) :
    Option α × RetryStats :=
  retryGo f max_retries 0 { waited := 0, errors := 0, rate_limit_waits := 0 }

def alwaysThrottled : ℕ → ApiOutcome ℕ := fun _ => ApiOutcome.tooManyRequests

def throttledTwice : ℕ → ApiOutcome ℕ :=
  fun i => if i < 2 then ApiOutcome.tooManyRequests else ApiOutcome.ok 37

/-! ## Extraction driver (RedditExtractor.extract_posts_with_comments, lines 441-480)

For the temporal claim the per-item control flow is embedded as the event
trace the driver produces.  A submission handle is summarised by its id and
by whether `get_submission_data` yields a record (`fields_ok`).  When it
does, the record's `reddit_id` equals `submission.id` (line 230), so the
checkpointed identifier is the submission's.  `get_submission_comments`
catches its own failures internally and always returns a list, so the
comment step always completes once entered; a mid-run crash is modelled by
truncating the trace at an arbitrary point. -/

structure SubmissionB where
  sid : String
  fields_ok : Bool

inductive RunEvent where
  | itemExtracted (id : String)
  | commentsExtracted (id : String)
  | checkpointed (id : String)
  | itemSkipped (id : String)
deriving DecidableEq

/-- Event trace of one iteration of the driver's `for` loop: failed field
extraction skips the item (no checkpoint); otherwise comments are extracted
(when enabled) and only then is the id checkpointed. -/
def processSubmission (fetchComments : Bool) (s : SubmissionB) : List RunEvent :=
  if s.fields_ok then
    RunEvent.itemExtracted s.sid ::
      ((if fetchComments then [RunEvent.commentsExtracted s.sid] else []) ++
        [RunEvent.checkpointed s.sid])
  else [RunEvent.itemSkipped s.sid]

/-- Event trace of the whole `extract_posts_with_comments` run over the
fetched submissions, processed strictly in order. -/
def extract_posts_trace (fetchComments : Bool) (subs : List SubmissionB) : List RunEvent :=
  (subs.map (processSubmission fetchComments)).flatten

/-- In trace `t`, every checkpoint of an id is preceded by the completion of
that id's field extraction and of its comment extraction. -/
def CheckpointAfterBoth (t : List RunEvent) : Prop :=
  ∀ (i : ℕ) (id : String), t[i]? = some (RunEvent.checkpointed id) →
    (∃ j : ℕ, j < i ∧ t[j]? = some (RunEvent.itemExtracted id)) ∧
    (∃ j : ℕ, j < i ∧ t[j]? = some (RunEvent.commentsExtracted id))

/-! ## Statistics snapshots (RedditExtractor.get_stats lines 482-492,
MongoLoader.get_stats lines 229-231)

Both methods return `self.stats.copy()`.  To express that the copy is
detached from the component's internal dictionary, Python object identity is
modelled by a small heap: a list of dictionaries indexed by reference.
`get_stats` reads the dictionary at the component's reference and allocates
a fresh reference holding an equal dictionary. -/

abbrev StatsDict := List (String × ℕ)

abbrev StatsHeap := List StatsDict

/-- `self.stats` as initialised by `RedditExtractor.__init__`. -/
def extractor_init_stats : StatsDict :=
  [("posts_fetched", 0), ("posts_processed", 0), ("comments_fetched", 0),
   ("errors", 0), ("skipped_checkpoints", 0), ("rate_limit_waits", 0)]

/-- `self.stats` as initialised by `MongoLoader.__init__`. -/
def loader_init_stats : StatsDict :=
  [("posts_inserted", 0), ("posts_updated", 0), ("comments_inserted", 0),
   ("comments_updated", 0), ("errors", 0)]

/-- `get_stats`: `return self.stats.copy()` — allocate a fresh reference
containing an equal dictionary and hand that reference to the caller. -/
def get_stats (h : StatsHeap) (self : ℕ) : StatsHeap × ℕ :=
  (h ++ [h.getD self []], h.length)

/-- A caller-side in-place mutation of the dictionary at reference `r`. -/
def heapWrite (h : StatsHeap) (r : ℕ) (d : StatsDict) : StatsHeap := h.set r d

/-! ## Load engine (MongoLoader.load_posts lines 81-125, load_comments
lines 127-170)

Documents are field/value association lists, as stored by the document
store (field order is kept: `$set` updates an existing field in place and
appends new fields).  The store is the list of documents of one collection;
the loader's `__init__` has created a unique index on `reddit_id`, so
reachable stores hold pairwise distinct `reddit_id` values.

`bulk_write` of a batch of `UpdateOne({'reddit_id': k}, {'$set': rec},
upsert=True)` operations applies each operation in order: the first
document matching the key is updated with `$set`, otherwise a new document
(key field, then the record's fields) is inserted.  Building the operation
list for a batch reads `rec['reddit_id']`; a record without that key raises,
aborting the current and all later batches while keeping earlier ones. -/

abbrev MDoc := List (String × String)

def ridKey : String := "reddit_id"

/-- First value bound to field `f` in document `d`. -/
def getVal : MDoc → String → Option String
  | [], _ => none
  | (g, w) :: rest, f => if g = f then some w else getVal rest f

/-- `$set` of a single field: replace the first binding in place, or append. -/
def setField : MDoc → String → String → MDoc
  | [], f, v => [(f, v)]
  | (g, w) :: rest, f, v => if g = f then (f, v) :: rest else (g, w) :: setField rest f v

/-- `$set` with update document `r`. -/
def setFields (d : MDoc) (r : MDoc) : MDoc :=
  r.foldl (fun acc p => setField acc p.1 p.2) d

/-- The document's stored key value. -/
def sidOf (d : MDoc) : Option String := getVal d ridKey

/-- One upsert-by-key operation against the collection. -/
def upsertGo (r : MDoc) (k : String) : List MDoc → List MDoc
  | [] => [setFields [(ridKey, k)] r]
  | d :: ds => if sidOf d = some k then setFields d r :: ds else d :: upsertGo r k ds

def bulkUpsertOne (s : List MDoc) (r : MDoc) : List MDoc :=
  match sidOf r with
  | some k => upsertGo r k s
  | none => s

/-- Apply a list of upsert operations in order (one unordered bulk request;
with no write errors the unordered bulk has the same effect as in-order
application). -/
def runOps (s : List MDoc) (rs : List MDoc) : List MDoc := rs.foldl bulkUpsertOne s

/-- Python `records[i:i+batch_size]` slicing over `range(0, len, batch_size)`. -/
def chunksGo (bs : ℕ) : ℕ → List MDoc → List (List MDoc)
  | 0, _ => []
  | _, [] => []
  | fuel + 1, l => l.take bs :: chunksGo bs fuel (l.drop bs)

def chunks (bs : ℕ) (l : List MDoc) : List (List MDoc) := chunksGo bs l.length l

/-- Process batches in order; a batch containing a record without the key
field aborts there (its operation list fails to build), keeping the store
produced by the earlier batches. -/
def loadBatches (st : List MDoc) : List (List MDoc) → List MDoc
  | [] => st
  | b :: more =>
    if b.all (fun r => (sidOf r).isSome) then loadBatches (runOps st b) more else st

/-- `MongoLoader.load_posts(posts_data)` acting on the posts collection. -/
def load_posts (batch_size : ℕ) (store : List MDoc) (posts_data : List MDoc) : List MDoc :=
  loadBatches store (chunks batch_size posts_data)

/-- `MongoLoader.load_comments(comments_data)`: same logic, comments collection. -/
def load_comments (batch_size : ℕ) (store : List MDoc) (comments_data : List MDoc) : List MDoc :=
  loadBatches store (chunks batch_size comments_data)

/-- Record wellformedness: field names pairwise distinct (the record is a
Python dict) and the `reddit_id` key present. -/
def recWFB (r : MDoc) : Bool :=
  decide ((r.map Prod.fst).Nodup) && (sidOf r).isSome

/-- Unique-index invariant of a collection: stored key values are pairwise
distinct. -/
def StoreUnique (s : List MDoc) : Prop := (s.filterMap sidOf).Nodup

/-- `$set` result of replaying `rs` onto the single document `d` (all the
records whose key matches the document's, in order). -/
def applyMatching (d : MDoc) (rs : List MDoc) : MDoc :=
  (rs.filter (fun r => decide (sidOf r = sidOf d))).foldl setFields d

/-- Ids inserted (as fresh documents) by a run of records, given the key
values already `seen` in the store, in first-occurrence order. -/
def newIds (seen : List String) : List MDoc → List String
  | [] => []
  | r :: t =>
    match sidOf r with
    | some k => if k ∈ seen then newIds seen t else k :: newIds (k :: seen) t
    | none => newIds seen t

/-- Closed form of a run: every stored document absorbs its matching
records in place, and one fresh document per previously unseen key is
appended in first-occurrence order. -/
def runSpec (s : List MDoc) (rs : List MDoc) : List MDoc :=
  s.map (fun d => applyMatching d rs) ++
    (newIds (s.filterMap sidOf) rs).map (fun k => applyMatching [(ridKey, k)] rs)

def recA : MDoc := [("reddit_id", "aaa"), ("title", "first")]
def recB : MDoc := [("reddit_id", "bbb"), ("title", "second")]
def recsAB : List MDoc := [recA, recB]
def keyA : String := "aaa"

/-! ## Theorems -/

/-- Claim C1: REFUTED on the code — `wait_if_needed` appends the timestamp
captured *before* its sleep, so with ceiling 1 and three back-to-back calls
starting at time 0 the issue times are 0, 60, 60: the second and third calls
are issued at the same instant and the rolling one-minute window around
t = 60 contains two calls, exceeding the ceiling of 1.  This contradicts the
class's own docstring (requests per minute never exceed the limit), so the
claim states the intent and the code has the defect. -/
theorem rate_governor_window_violation :
    (issueCalls rl0 0 3).1 = [0, 60, 60] ∧
    windowCount (issueCalls rl0 0 3).1 60 = 2 ∧
    ¬ windowCount (issueCalls rl0 0 3).1 60 ≤ rl0.rpm := by
  refine ⟨?_, ?_, ?_⟩ <;>
    norm_num [issueCalls, wait_if_needed, rl0, windowCount, List.filter]

/-- Claim C2: REFUTED as stated — `CheckpointManager.save` appends
unconditionally, so marking the same id twice stores the id twice: the
processed list gains a duplicate entry. -/
theorem checkpoint_double_mark_duplicate :
    (checkpoint_save (checkpoint_save emptyCheckpoint idAbc ts0) idAbc ts1).processed_posts
      = [idAbc, idAbc] ∧
    ¬ (checkpoint_save (checkpoint_save emptyCheckpoint idAbc ts0) idAbc
        ts1).processed_posts.Nodup := by
  decide

/-- Claim C2 (amended): marking the same id twice appends a second copy of
the id to the stored list, but leaves the processed ids unchanged *as a
set*; `is_processed` is true immediately after a single mark and remains
true after reloading the store from the durable file that `save` wrote. -/
theorem checkpoint_mark_semantics (d : CheckpointData) (id t1 t2 : String) :
    is_processed (checkpoint_save d id t1) id = true ∧
    (checkpoint_save (checkpoint_save d id t1) id t2).processed_posts.toFinset
      = (checkpoint_save d id t1).processed_posts.toFinset ∧
    is_processed (checkpoint_load (checkpoint_write (checkpoint_save d id t1))) id = true := by
  refine ⟨?_, ?_, ?_⟩
  · simp [is_processed, checkpoint_save]
  · simp only [checkpoint_save, List.toFinset_append]
    rw [Finset.union_assoc, Finset.union_self]
  · simp [is_processed, checkpoint_save, checkpoint_load, checkpoint_write]

/-- Claim C8: any failure to read or parse the durable checkpoint at
initialization (missing file or malformed content) yields the empty initial
state, initialization completes, and `is_processed` is false for every id
on that state. -/
theorem checkpoint_init_failure_empty :
    (∀ st : Option (Option CheckpointData), st = none ∨ st = some none →
      checkpoint_load st = emptyCheckpoint) ∧
    (∀ id : String, is_processed emptyCheckpoint id = false) := by
  constructor
  · rintro st (rfl | rfl) <;> rfl
  · intro id; rfl

theorem checkpoint_init_failure_empty_witness :
    checkpoint_load none = emptyCheckpoint ∧
    checkpoint_load (some none) = emptyCheckpoint ∧
    is_processed emptyCheckpoint idAbc = false :=
  ⟨checkpoint_init_failure_empty.1 none (Or.inl rfl),
   checkpoint_init_failure_empty.1 (some none) (Or.inr rfl),
   checkpoint_init_failure_empty.2 idAbc⟩

theorem retryGo_none_of_fail {α : Type} (f : ℕ → ApiOutcome α) (m : ℕ)
    (hfail : ∀ i, i < m → (f i).isOk = false) :
    ∀ fuel attempt st, m - attempt ≤ fuel → (retryGo f m attempt st).1 = none := by
  intro fuel
  induction fuel with
  | zero =>
    intro attempt st hf
    rw [retryGo, dif_neg (by omega)]
  | succ n ih =>
    intro attempt st hf
    rw [retryGo]
    by_cases ha : attempt < m
    · rw [dif_pos ha]
      cases hv : f attempt with
      | ok v => have := hfail attempt ha; rw [hv] at this; simp [ApiOutcome.isOk] at this
      | tooManyRequests => exact ih (attempt + 1) _ (by omega)
      | serverError => exact ih (attempt + 1) _ (by omega)
      | requestError => exact ih (attempt + 1) _ (by omega)
      | otherError =>
        by_cases hl : attempt = m - 1
        · rw [if_pos hl]
        · rw [if_neg hl]; exact ih (attempt + 1) _ (by omega)
    · rw [dif_neg ha]

/-- Claim C5: for an operation wrapped by `_api_call_with_retry` that fails
on every one of its `max_retries` attempts — with any mix of throttling,
server-error, request-error or other failures — the call returns the
"no result" outcome `None`; no exception escapes (every failure class is
absorbed by an except arm of the loop). -/
theorem retry_exhaustion_no_result {α : Type} (f : ℕ → ApiOutcome α) (m : ℕ)
    (hfail : ∀ i, i < m → (f i).isOk = false) :
    (api_call_with_retry f m).1 = none :=
  retryGo_none_of_fail f m hfail m 0 _ (by omega)

theorem retry_exhaustion_no_result_witness :
    (∀ i, i < 3 → (alwaysThrottled i).isOk = false) ∧
    (api_call_with_retry alwaysThrottled 3).1 = none :=
  ⟨by decide, retry_exhaustion_no_result alwaysThrottled 3 (by decide)⟩

theorem retryGo_throttle_run {α : Type} (f : ℕ → ApiOutcome α) (m k : ℕ) (v : α)
    (hk : k < m) (hth : ∀ i, i < k → f i = ApiOutcome.tooManyRequests)
    (hok : f k = ApiOutcome.ok v) :
    ∀ fuel j st, j ≤ k → k - j ≤ fuel →
      retryGo f m j st =
        (some v,
          { waited := st.waited + 60 * ∑ i ∈ Finset.Ico j k, (i + 1)
            errors := st.errors
            rate_limit_waits := st.rate_limit_waits + (k - j) }) := by
  intro fuel
  induction fuel with
  | zero =>
    intro j st hj hf
    have hjk : j = k := by omega
    subst hjk
    rw [retryGo, dif_pos (by omega), hok]
    simp
  | succ n ih =>
    intro j st hj hf
    by_cases hjk : j = k
    · subst hjk
      rw [retryGo, dif_pos (by omega), hok]
      simp
    · have hjlt : j < k := by omega
      rw [retryGo, dif_pos (by omega), hth j hjlt]
      rw [ih (j + 1) _ (by omega) (by omega)]
      have hsum : ∑ i ∈ Finset.Ico j k, (i + 1)
          = (j + 1) + ∑ i ∈ Finset.Ico (j + 1) k, (i + 1) :=
        Finset.sum_eq_sum_Ico_succ_bot hjlt _
      rw [hsum]
      simp only [Prod.mk.injEq, RetryStats.mk.injEq]
      exact ⟨trivial, by ring, trivial, by omega⟩

/-- Claim C6: each throttling failure on 1-based attempt `n` sleeps `60 * n`
seconds and still consumes an attempt; a call whose throttling resolves
after `k` failed attempts with `k < max_retries` ultimately succeeds, having
waited exactly `60 * 1 + 60 * 2 + ⋯ + 60 * k` seconds in backoff and
recorded `k` rate-limit waits. -/
theorem retry_throttle_backoff {α : Type} (f : ℕ → ApiOutcome α) (m k : ℕ) (v : α)
    (hk : k < m) (hth : ∀ i, i < k → f i = ApiOutcome.tooManyRequests)
    (hok : f k = ApiOutcome.ok v) :
    (api_call_with_retry f m).1 = some v ∧
    (api_call_with_retry f m).2.waited = ∑ i ∈ Finset.range k, 60 * (i + 1) ∧
    (api_call_with_retry f m).2.rate_limit_waits = k := by
  have h := retryGo_throttle_run f m k v hk hth hok k 0 ⟨0, 0, 0⟩ (by omega) (by omega)
  unfold api_call_with_retry
  rw [h]
  refine ⟨rfl, ?_, by show 0 + (k - 0) = k; omega⟩
  show 0 + 60 * ∑ i ∈ Finset.Ico 0 k, (i + 1) = ∑ i ∈ Finset.range k, 60 * (i + 1)
  rw [Finset.range_eq_Ico, Finset.mul_sum, Nat.zero_add]

theorem retry_throttle_backoff_witness :
    (2 < 3 ∧ (∀ i, i < 2 → throttledTwice i = ApiOutcome.tooManyRequests) ∧
      throttledTwice 2 = ApiOutcome.ok 37) ∧
    (api_call_with_retry throttledTwice 3).1 = some 37 ∧
    (api_call_with_retry throttledTwice 3).2.rate_limit_waits = 2 :=
  ⟨⟨by omega, by decide, by decide⟩,
   (retry_throttle_backoff throttledTwice 3 2 37 (by omega) (by decide) (by decide)).1,
   (retry_throttle_backoff throttledTwice 3 2 37 (by omega) (by decide) (by decide)).2.2⟩

theorem depthGo_le (m : CommentMap) :
    ∀ fuel pid d, 50 - d ≤ fuel → d ≤ 50 → depthGo m pid d ≤ 50 := by
  intro fuel
  induction fuel with
  | zero =>
    intro pid d hf hd
    rw [depthGo, dif_neg (by omega)]
    exact hd
  | succ n ih =>
    intro pid d hf hd
    rw [depthGo]
    by_cases hc : pid ≠ [] ∧ pyStartsWith pid t1Tag = true ∧ d < 50
    · rw [dif_pos hc]
      cases hlk : lookupMap m (stripT1 pid) with
      | some p => exact ih p (d + 1) (by omega) (by omega)
      | none => exact hd
    · rw [dif_neg hc]
      exact hd

/-- Claim C4: on every input — cyclic or corrupted parent links included —
the depth resolver's loop is total (the embedding is a terminating
function), the returned depth never exceeds the iteration ceiling of 50,
and a comment-type parent reference whose id is absent from the lookup
table makes the loop break with the depth accumulated so far. -/
theorem depth_resolver_total_bounded (m : CommentMap) (pid : RId) :
    calculate_comment_depth pid m ≤ 50 ∧
    (∀ d : ℕ, pyStartsWith pid t1Tag = true → lookupMap m (stripT1 pid) = none →
      depthGo m pid d = d) := by
  constructor
  · exact depthGo_le m 50 pid 0 (by omega) (by omega)
  · intro d hpre hnone
    rw [depthGo]
    by_cases hc : pid ≠ [] ∧ pyStartsWith pid t1Tag = true ∧ d < 50
    · rw [dif_pos hc, hnone]
    · rw [dif_neg hc]

theorem depth_resolver_total_bounded_witness :
    calculate_comment_depth pairPid [] ≤ 50 ∧
    pyStartsWith pairPid t1Tag = true ∧
    lookupMap [] (stripT1 pairPid) = none ∧
    depthGo [] pairPid 7 = 7 :=
  ⟨(depth_resolver_total_bounded [] pairPid).1, by decide, by decide,
   (depth_resolver_total_bounded [] pairPid).2 7 (by decide) (by decide)⟩

theorem stripT1_of_not_sub : ∀ p : RId, hasT1Sub p = false → stripT1 p = p := by
  intro p
  induction p with
  | nil => intro _; rw [stripT1]
  | cons c s ih =>
    intro h
    rw [hasT1Sub, Bool.or_eq_false_iff] at h
    rcases s with _ | ⟨c2, s2⟩
    · rw [stripT1]
    rcases s2 with _ | ⟨c3, rest⟩
    · rw [stripT1]
    have hcond : ¬ (c = 't' ∧ c2 = '1' ∧ c3 = '_') := by
      rintro ⟨rfl, rfl, rfl⟩
      have h1 := h.1
      simp [t1Tag, List.isPrefixOf] at h1
    rw [stripT1, if_neg hcond, ih h.2]

theorem stripT1_t1_append (p : RId) (h : hasT1Sub p = false) :
    stripT1 (t1Tag ++ p) = p := by
  show stripT1 ('t' :: '1' :: '_' :: p) = p
  rw [stripT1, if_pos ⟨rfl, rfl, rfl⟩]
  exact stripT1_of_not_sub p h

theorem startsWith_t1_decomp {pid : RId} (h : pyStartsWith pid t1Tag = true) :
    pid = t1Tag ++ pid.drop 3 := by
  have h' : t1Tag <+: pid := by
    rw [pyStartsWith] at h
    exact List.isPrefixOf_iff_prefix.mp h
  obtain ⟨t, ht⟩ := h'
  rw [← ht, show (3 : ℕ) = t1Tag.length from rfl, List.drop_left]

theorem lookupMap_mem : ∀ {m : CommentMap} {k v : RId}, lookupMap m k = some v → (k, v) ∈ m := by
  intro m
  induction m with
  | nil => intro k v h; simp [lookupMap, List.lookup] at h
  | cons p t ih =>
    intro k v h
    obtain ⟨a, b⟩ := p
    rw [lookupMap, List.lookup] at h
    cases he : (k == a) with
    | true =>
      rw [he] at h
      cases h
      have hk : k = a := eq_of_beq he
      subst hk
      exact List.mem_cons_self _ _
    | false =>
      rw [he] at h
      exact List.mem_cons_of_mem _ (ih h)

theorem depthGo_eq_min (m : CommentMap) (R : RId → ℕ)
    (hm : ∀ pr ∈ m, validRefB m R pr.2 = true) :
    ∀ fuel pid d, 50 - d ≤ fuel → validRefB m R pid = true →
      depthGo m pid d = d + min (R pid) (50 - d) := by
  intro fuel
  induction fuel with
  | zero =>
    intro pid d hf hv
    rw [depthGo, dif_neg (by omega)]
    omega
  | succ n ih =>
    intro pid d hf hv
    by_cases hd : d < 50
    case neg =>
      rw [depthGo, dif_neg (by omega)]
      omega
    case pos =>
      by_cases hpre : pyStartsWith pid t1Tag = true
      · rw [validRefB, if_pos hpre] at hv
        cases hlk : lookupMap m (pid.drop 3) with
        | none => rw [hlk] at hv; simp at hv
        | some q =>
          rw [hlk] at hv
          simp only [Bool.and_eq_true, Bool.not_eq_true', decide_eq_true_eq] at hv
          obtain ⟨hsub, hR⟩ := hv
          have hdec := startsWith_t1_decomp hpre
          have hne : pid ≠ [] := by rw [hdec]; simp [t1Tag]
          have hstrip : stripT1 pid = pid.drop 3 := by
            conv_lhs => rw [hdec]
            exact stripT1_t1_append _ hsub
          rw [depthGo, dif_pos ⟨hne, hpre, hd⟩]
          simp only [hstrip, hlk]
          have hq : validRefB m R q = true := hm _ (lookupMap_mem hlk)
          rw [ih q (d + 1) (by omega) hq, hR]
          omega
      · rw [validRefB, if_neg hpre] at hv
        simp only [decide_eq_true_eq] at hv
        rw [depthGo, dif_neg (by rintro ⟨-, h2, -⟩; exact hpre h2)]
        omega

/-- Claim C3 (amended): for a valid forest — pairwise distinct comment ids,
every comment-type parent present in the lookup table, no cycles, ids free
of embedded `t1_` text, all witnessed by the depth certificate `R` — the
resolver computes the true parent-chain length *capped at the iteration
ceiling 50*: `min (R pid) 50`.  A comment whose direct parent reference is
not comment-type (in particular the item itself, `t3_…`) gets depth 0.  The
uncapped equality claimed by the specification fails for chains deeper than
50 (see the counterexample). -/
theorem depth_resolver_forest_correct (m : CommentMap) (R : RId → ℕ) (pid : RId)
    (hm : validMapB m R = true) (hp : validRefB m R pid = true) :
    calculate_comment_depth pid m = min (R pid) 50 ∧
    (∀ q : RId, pyStartsWith q t1Tag = false → calculate_comment_depth q m = 0) := by
  have hm' : ∀ pr ∈ m, validRefB m R pr.2 = true := by
    rw [validMapB, Bool.and_eq_true, List.all_eq_true] at hm
    exact fun pr h => hm.2 pr h
  constructor
  · have h := depthGo_eq_min m R hm' 50 pid 0 (by omega) hp
    simpa [calculate_comment_depth] using h
  · intro q hq
    rw [calculate_comment_depth, depthGo,
      dif_neg (by rintro ⟨-, h2, -⟩; rw [hq] at h2; exact Bool.false_ne_true h2)]

theorem depth_resolver_forest_correct_witness :
    validMapB pairMap pairR = true ∧ validRefB pairMap pairR pairPid = true ∧
    calculate_comment_depth pairPid pairMap = min (pairR pairPid) 50 ∧
    calculate_comment_depth t3Root pairMap = 0 :=
  ⟨by decide, by decide,
   (depth_resolver_forest_correct pairMap pairR pairPid (by decide) (by decide)).1,
   (depth_resolver_forest_correct pairMap pairR pairPid (by decide) (by decide)).2
     t3Root (by decide)⟩

theorem depthGo_eq_fuel (m : CommentMap) :
    ∀ fuel pid d, 50 - d ≤ fuel → depthGo m pid d = depthGoFuel m fuel pid d := by
  intro fuel
  induction fuel with
  | zero =>
    intro pid d hf
    rw [depthGo, dif_neg (by omega), depthGoFuel]
  | succ n ih =>
    intro pid d hf
    rw [depthGo, depthGoFuel]
    by_cases hc : pid ≠ [] ∧ pyStartsWith pid t1Tag = true ∧ d < 50
    · rw [dif_pos hc, if_pos hc]
      cases hlk : lookupMap m (stripT1 pid) with
      | some p =>
        simp only [hlk]
        exact ih p (d + 1) (by omega)
      | none => simp only [hlk]
    · rw [dif_neg hc, if_neg hc]

/-- Claim C3 counterexample: `chainMap` is a valid forest (certificate
`chainR`), the comment with parent reference `t1_<c0>` has true parent-chain
length 51, but the resolver returns 50 — the iteration ceiling caps the
computed depth, so computed depth does not always equal the true chain
length on valid forests. -/
theorem depth_resolver_cap_counterexample :
    validMapB chainMap chainR = true ∧ validRefB chainMap chainR chainPid = true ∧
    chainR chainPid = 51 ∧
    calculate_comment_depth chainPid chainMap = 50 ∧
    calculate_comment_depth chainPid chainMap ≠ chainR chainPid := by
  have he : calculate_comment_depth chainPid chainMap = depthGoFuel chainMap 50 chainPid 0 := by
    rw [calculate_comment_depth]
    exact depthGo_eq_fuel chainMap 50 chainPid 0 (by omega)
  refine ⟨by decide, by decide, by decide, ?_, ?_⟩
  · rw [he]; decide
  · rw [he]; decide

theorem checkpointAfterBoth_append {a b : List RunEvent}
    (ha : CheckpointAfterBoth a) (hb : CheckpointAfterBoth b) :
    CheckpointAfterBoth (a ++ b) := by
  intro i id hi
  by_cases hlt : i < a.length
  · rw [List.getElem?_append_left hlt] at hi
    obtain ⟨⟨j, hj, hja⟩, ⟨j', hj', hja'⟩⟩ := ha i id hi
    exact ⟨⟨j, hj, by rw [List.getElem?_append_left (by omega)]; exact hja⟩,
           ⟨j', hj', by rw [List.getElem?_append_left (by omega)]; exact hja'⟩⟩
  · have hge : a.length ≤ i := by omega
    rw [List.getElem?_append_right hge] at hi
    obtain ⟨⟨j, hj, hjb⟩, ⟨j', hj', hjb'⟩⟩ := hb (i - a.length) id hi
    refine ⟨⟨j + a.length, by omega, ?_⟩, ⟨j' + a.length, by omega, ?_⟩⟩
    · rw [List.getElem?_append_right (by omega)]
      simpa using hjb
    · rw [List.getElem?_append_right (by omega)]
      simpa using hjb'

theorem checkpointAfterBoth_take {t : List RunEvent} (ht : CheckpointAfterBoth t) (n : ℕ) :
    CheckpointAfterBoth (t.take n) := by
  intro i id hi
  rw [List.getElem?_take] at hi
  by_cases hin : i < n
  · rw [if_pos hin] at hi
    obtain ⟨⟨j, hj, hja⟩, ⟨j', hj', hja'⟩⟩ := ht i id hi
    exact ⟨⟨j, hj, by rw [List.getElem?_take, if_pos (by omega)]; exact hja⟩,
           ⟨j', hj', by rw [List.getElem?_take, if_pos (by omega)]; exact hja'⟩⟩
  · rw [if_neg hin] at hi
    cases hi

theorem checkpointAfterBoth_block (s : SubmissionB) :
    CheckpointAfterBoth (processSubmission true s) := by
  intro i id hi
  by_cases hf : s.fields_ok
  · have hl : processSubmission true s =
        [RunEvent.itemExtracted s.sid, RunEvent.commentsExtracted s.sid,
         RunEvent.checkpointed s.sid] := by
      rw [processSubmission, if_pos hf]
      rfl
    rw [hl] at hi ⊢
    match i, hi with
    | 0, hi => simp at hi
    | 1, hi => simp at hi
    | 2, hi =>
      have hid : s.sid = id := by simpa using hi
      subst hid
      exact ⟨⟨0, by omega, rfl⟩, ⟨1, by omega, rfl⟩⟩
    | n + 3, hi => simp at hi
  · have hl : processSubmission true s = [RunEvent.itemSkipped s.sid] := by
      rw [processSubmission, if_neg hf]
    rw [hl] at hi
    match i, hi with
    | 0, hi => simp at hi
    | n + 1, hi => simp at hi

theorem checkpointAfterBoth_flatten :
    ∀ blocks : List (List RunEvent), (∀ b ∈ blocks, CheckpointAfterBoth b) →
      CheckpointAfterBoth blocks.flatten := by
  intro blocks
  induction blocks with
  | nil =>
    intro _ i id hi
    simp at hi
  | cons b bs ih =>
    intro h
    rw [List.flatten_cons]
    exact checkpointAfterBoth_append (h b (List.mem_cons_self _ _))
      (ih fun x hx => h x (List.mem_cons_of_mem _ hx))

/-- Claim C9: in every run of `extract_posts_with_comments` (comments
enabled), and at every reachable point of the run — modelled by truncating
the event trace anywhere, as a crash would — an id appears as checkpointed
only after both the field extraction and the comment extraction of that
same item occurred earlier in the trace; no partially-done item is ever
marked done. -/
theorem checkpoint_only_after_full_item (subs : List SubmissionB) (n : ℕ) :
    CheckpointAfterBoth ((extract_posts_trace true subs).take n) := by
  apply checkpointAfterBoth_take
  rw [extract_posts_trace]
  apply checkpointAfterBoth_flatten
  intro b hb
  rw [List.mem_map] at hb
  obtain ⟨s, -, rfl⟩ := hb
  exact checkpointAfterBoth_block s

/-- Claim C10: `get_stats` returns a detached copy of the statistics
dictionary: the returned reference is distinct from the component's own,
its contents equal the internal dictionary, any caller mutation through the
returned reference leaves the internal dictionary unchanged, and two
consecutive `get_stats` calls with no intervening operation return equal
dictionaries. -/
theorem get_stats_detached (h : StatsHeap) (self : ℕ) (hs : self < h.length) :
    (get_stats h self).2 ≠ self ∧
    (get_stats h self).1.getD (get_stats h self).2 [] = h.getD self [] ∧
    (∀ d : StatsDict, (heapWrite (get_stats h self).1 (get_stats h self).2 d).getD self []
        = h.getD self []) ∧
    (get_stats (get_stats h self).1 self).1.getD (get_stats (get_stats h self).1 self).2 []
      = (get_stats h self).1.getD (get_stats h self).2 [] := by
  have hga : ∀ (l : StatsHeap) (x : StatsDict), (l ++ [x]).getD l.length [] = x := by
    intro l x
    simp only [List.getD_eq_getElem?_getD, List.getElem?_concat_length, Option.getD_some]
  have hbl : ∀ l2 : StatsHeap, (h ++ l2).getD self [] = h.getD self [] := by
    intro l2
    simp only [List.getD_eq_getElem?_getD]
    rw [List.getElem?_append_left hs]
  refine ⟨by show h.length ≠ self; omega, ?_, ?_, ?_⟩
  · show (h ++ [h.getD self []]).getD h.length [] = h.getD self []
    exact hga h _
  · intro d
    show ((h ++ [h.getD self []]).set h.length d).getD self [] = h.getD self []
    simp only [List.getD_eq_getElem?_getD]
    rw [List.getElem?_set_ne (by omega), List.getElem?_append_left hs]
  · show ((h ++ [h.getD self []]) ++ [(h ++ [h.getD self []]).getD self []]).getD
        (h ++ [h.getD self []]).length []
      = (h ++ [h.getD self []]).getD h.length []
    rw [hga, hga, hbl]

theorem map_congr_own {α β : Type} (l : List α) (f g : α → β) (h : ∀ x ∈ l, f x = g x) :
    l.map f = l.map g := by
  induction l with
  | nil => rfl
  | cons a t ih =>
    rw [List.map_cons, List.map_cons, h a (List.mem_cons_self _ _),
      ih fun x hx => h x (List.mem_cons_of_mem _ hx)]

theorem map_id_of_eq {α : Type} (l : List α) (f : α → α) (h : ∀ x ∈ l, f x = x) :
    l.map f = l := by
  induction l with
  | nil => rfl
  | cons a t ih =>
    rw [List.map_cons, h a (List.mem_cons_self _ _),
      ih fun x hx => h x (List.mem_cons_of_mem _ hx)]

theorem filterMap_congr_own {α β : Type} (l : List α) (f g : α → Option β)
    (h : ∀ x ∈ l, f x = g x) : l.filterMap f = l.filterMap g := by
  induction l with
  | nil => rfl
  | cons a t ih =>
    rw [List.filterMap_cons, List.filterMap_cons, h a (List.mem_cons_self _ _),
      ih fun x hx => h x (List.mem_cons_of_mem _ hx)]

theorem filter_congr_own {α : Type} (l : List α) (p q : α → Bool)
    (h : ∀ x ∈ l, p x = q x) : l.filter p = l.filter q := by
  induction l with
  | nil => rfl
  | cons a t ih =>
    rw [List.filter_cons, List.filter_cons, h a (List.mem_cons_self _ _),
      ih fun x hx => h x (List.mem_cons_of_mem _ hx)]

theorem length_filter_map_own {α β : Type} (l : List α) (f : α → β) (p : β → Bool) :
    ((l.map f).filter p).length = (l.filter fun x => p (f x)).length := by
  induction l with
  | nil => rfl
  | cons a t ih =>
    rw [List.map_cons, List.filter_cons, List.filter_cons]
    cases hp : p (f a)
    · simpa using ih
    · simpa using ih

theorem getVal_setField_self (d : MDoc) (f v : String) :
    getVal (setField d f v) f = some v := by
  induction d with
  | nil => simp [setField, getVal]
  | cons p rest ih =>
    obtain ⟨g, w⟩ := p
    rw [setField]
    by_cases hg : g = f
    · rw [if_pos hg, getVal, if_pos rfl]
    · rw [if_neg hg, getVal, if_neg hg, ih]

theorem getVal_setField_ne (d : MDoc) {f g : String} (w : String) (hfg : g ≠ f) :
    getVal (setField d g w) f = getVal d f := by
  induction d with
  | nil => simp [setField, getVal, hfg]
  | cons p rest ih =>
    obtain ⟨a, b⟩ := p
    rw [setField]
    by_cases ha : a = g
    · rw [if_pos ha, getVal, if_neg hfg, getVal, if_neg (by rw [ha]; exact hfg)]
    · rw [if_neg ha, getVal, getVal]
      by_cases haf : a = f
      · rw [if_pos haf, if_pos haf]
      · rw [if_neg haf, if_neg haf, ih]

theorem setField_of_getVal (d : MDoc) {f v : String} (h : getVal d f = some v) :
    setField d f v = d := by
  induction d with
  | nil => rw [getVal] at h; cases h
  | cons p rest ih =>
    obtain ⟨a, b⟩ := p
    rw [getVal] at h
    rw [setField]
    by_cases ha : a = f
    · rw [if_pos ha] at h
      rw [if_pos ha]
      injection h with hbv
      rw [← hbv, ← ha]
    · rw [if_neg ha] at h
      rw [if_neg ha, ih h]

theorem setField_setField_same (d : MDoc) (f v v' : String) :
    setField (setField d f v) f v' = setField d f v' := by
  induction d with
  | nil => simp [setField]
  | cons p rest ih =>
    obtain ⟨a, b⟩ := p
    rw [setField]
    by_cases ha : a = f
    · rw [if_pos ha, setField, if_pos rfl, setField, if_pos ha]
    · rw [if_neg ha, setField, if_neg ha, setField, if_neg ha, ih]

theorem setField_comm (d : MDoc) {f g : String} (v w : String)
    (hf : (getVal d f).isSome) (hfg : f ≠ g) :
    setField (setField d f v) g w = setField (setField d g w) f v := by
  induction d with
  | nil => rw [getVal] at hf; simp at hf
  | cons p rest ih =>
    obtain ⟨a, b⟩ := p
    by_cases haf : a = f
    · subst haf
      have h1 : setField ((a, b) :: rest) a v = (a, v) :: rest := by
        rw [setField, if_pos rfl]
      have h2 : setField ((a, b) :: rest) g w = (a, b) :: setField rest g w := by
        rw [setField, if_neg hfg]
      have h3 : setField ((a, v) :: rest) g w = (a, v) :: setField rest g w := by
        rw [setField, if_neg hfg]
      have h4 : setField ((a, b) :: setField rest g w) a v = (a, v) :: setField rest g w := by
        rw [setField, if_pos rfl]
      rw [h1, h2, h3, h4]
    · by_cases hag : a = g
      · subst hag
        have h1 : setField ((a, b) :: rest) f v = (a, b) :: setField rest f v := by
          rw [setField, if_neg haf]
        have h2 : setField ((a, b) :: setField rest f v) a w = (a, w) :: setField rest f v := by
          rw [setField, if_pos rfl]
        have h3 : setField ((a, b) :: rest) a w = (a, w) :: rest := by
          rw [setField, if_pos rfl]
        have h4 : setField ((a, w) :: rest) f v = (a, w) :: setField rest f v := by
          rw [setField, if_neg haf]
        rw [h1, h2, h3, h4]
      · have hf' : (getVal rest f).isSome := by
          rw [getVal, if_neg haf] at hf
          exact hf
        have h1 : setField ((a, b) :: rest) f v = (a, b) :: setField rest f v := by
          rw [setField, if_neg haf]
        have h2 : setField ((a, b) :: setField rest f v) g w
            = (a, b) :: setField (setField rest f v) g w := by
          rw [setField, if_neg hag]
        have h3 : setField ((a, b) :: rest) g w = (a, b) :: setField rest g w := by
          rw [setField, if_neg hag]
        have h4 : setField ((a, b) :: setField rest g w) f v
            = (a, b) :: setField (setField rest g w) f v := by
          rw [setField, if_neg haf]
        rw [h1, h2, h3, h4, ih hf']

theorem setFields_nil (d : MDoc) : setFields d [] = d := rfl

theorem setFields_cons (d : MDoc) (p : String × String) (t : MDoc) :
    setFields d (p :: t) = setFields (setField d p.1 p.2) t := rfl

theorem setFields_append (d : MDoc) (r r' : MDoc) :
    setFields d (r ++ r') = setFields (setFields d r) r' :=
  List.foldl_append _ _ _ _

theorem getVal_setFields_not_key (r : MDoc) :
    ∀ (d : MDoc) {f : String}, (∀ p ∈ r, p.1 ≠ f) →
      getVal (setFields d r) f = getVal d f := by
  induction r with
  | nil => intro d f _; rfl
  | cons p t ih =>
    intro d f h
    obtain ⟨g, w⟩ := p
    rw [setFields_cons]
    rw [ih _ fun q hq => h q (List.mem_cons_of_mem _ hq)]
    exact getVal_setField_ne d w (h (g, w) (List.mem_cons_self _ _))

theorem getVal_setFields_isSome (r : MDoc) :
    ∀ (d : MDoc) {f : String}, (getVal d f).isSome →
      (getVal (setFields d r) f).isSome := by
  induction r with
  | nil => intro d f h; exact h
  | cons p t ih =>
    intro d f h
    obtain ⟨g, w⟩ := p
    rw [setFields_cons]
    apply ih
    by_cases hg : g = f
    · subst hg
      rw [getVal_setField_self]
      rfl
    · rw [getVal_setField_ne d w hg]
      exact h

theorem getVal_setFields_of_nodup (r : MDoc) :
    ∀ (d : MDoc) {f v : String}, getVal r f = some v → (r.map Prod.fst).Nodup →
      getVal (setFields d r) f = some v := by
  induction r with
  | nil => intro d f v h _; rw [getVal] at h; cases h
  | cons p t ih =>
    intro d f v h hnd
    obtain ⟨g, w⟩ := p
    rw [List.map_cons, List.nodup_cons] at hnd
    rw [getVal] at h
    rw [setFields_cons]
    by_cases hg : g = f
    · rw [if_pos hg] at h
      injection h with hwv
      subst hg
      have hnk : ∀ q ∈ t, q.1 ≠ g := by
        intro q hq hc
        exact hnd.1 (List.mem_map.mpr ⟨q, hq, hc⟩)
      rw [getVal_setFields_not_key t _ hnk]
      rw [getVal_setField_self, hwv]
    · rw [if_neg hg] at h
      exact ih _ h hnd.2

theorem setFields_setField_absorbed :
    ∀ (t : MDoc) (d : MDoc) (f v : String), (getVal d f).isSome →
      (∃ p ∈ t, p.1 = f) → setFields (setField d f v) t = setFields d t := by
  intro t
  induction t with
  | nil =>
    intro d f v _ hmem
    obtain ⟨p, hp, -⟩ := hmem
    cases hp
  | cons q t' ih =>
    intro d f v hf hmem
    obtain ⟨g, w⟩ := q
    by_cases hgf : g = f
    · subst hgf
      rw [setFields_cons, setFields_cons]
      rw [show ((g, w) : String × String).1 = g from rfl,
        show ((g, w) : String × String).2 = w from rfl]
      rw [setField_setField_same]
    · have hmem' : ∃ p ∈ t', p.1 = f := by
        obtain ⟨p, hp, hpf⟩ := hmem
        rcases List.mem_cons.mp hp with rfl | hp'
        · exact absurd hpf hgf
        · exact ⟨p, hp', hpf⟩
      rw [setFields_cons, setFields_cons]
      rw [show ((g, w) : String × String).1 = g from rfl,
        show ((g, w) : String × String).2 = w from rfl]
      rw [setField_comm d v w hf fun hc => hgf hc.symm]
      apply ih
      · by_cases hg : g = f
        · exact absurd hg hgf
        · rw [getVal_setField_ne d w hg]
          exact hf
      · exact hmem'

theorem setFields_absorb : ∀ (r : MDoc) (d : MDoc),
    setFields (setFields d r) r = setFields d r := by
  intro r
  induction r with
  | nil => intro d; rfl
  | cons p t ih =>
    intro d
    obtain ⟨f, v⟩ := p
    rw [setFields_cons, setFields_cons]
    rw [show ((f, v) : String × String).1 = f from rfl,
      show ((f, v) : String × String).2 = v from rfl]
    by_cases hmem : ∃ q ∈ t, q.1 = f
    · have hf : (getVal (setFields (setField d f v) t) f).isSome := by
        apply getVal_setFields_isSome
        rw [getVal_setField_self]
        rfl
      rw [setFields_setField_absorbed t _ f v hf hmem]
      exact ih (setField d f v)
    · push_neg at hmem
      have hv : getVal (setFields (setField d f v) t) f = some v := by
        rw [getVal_setFields_not_key t _ hmem, getVal_setField_self]
      rw [setField_of_getVal _ hv]
      exact ih (setField d f v)

theorem sidOf_key (k : String) (l : MDoc) : sidOf ((ridKey, k) :: l) = some k := by
  rw [sidOf, getVal, if_pos rfl]

theorem recWFB_parts {r : MDoc} (hr : recWFB r = true) :
    (r.map Prod.fst).Nodup ∧ (sidOf r).isSome = true := by
  rw [recWFB, Bool.and_eq_true, decide_eq_true_eq] at hr
  exact hr

theorem sidOf_setFields_match {d r : MDoc} (hr : recWFB r = true) (hm : sidOf r = sidOf d) :
    sidOf (setFields d r) = sidOf d := by
  obtain ⟨hnd, hsome⟩ := recWFB_parts hr
  cases hk : sidOf r with
  | none => rw [hk] at hsome; simp at hsome
  | some k =>
    rw [hk] at hm
    rw [show sidOf (setFields d r) = getVal (setFields d r) ridKey from rfl]
    rw [getVal_setFields_of_nodup r d hk hnd]
    exact hm

theorem sidOf_foldl_setFields (l : List MDoc) :
    ∀ d : MDoc, (∀ r ∈ l, recWFB r = true ∧ sidOf r = sidOf d) →
      sidOf (l.foldl setFields d) = sidOf d := by
  induction l with
  | nil => intro d _; rfl
  | cons r t ih =>
    intro d h
    rw [List.foldl_cons]
    have h1 := h r (List.mem_cons_self _ _)
    have hs : sidOf (setFields d r) = sidOf d := sidOf_setFields_match h1.1 h1.2
    have h2 : ∀ r' ∈ t, recWFB r' = true ∧ sidOf r' = sidOf (setFields d r) := by
      intro r' hr'
      refine ⟨(h r' (List.mem_cons_of_mem _ hr')).1, ?_⟩
      rw [hs]
      exact (h r' (List.mem_cons_of_mem _ hr')).2
    rw [ih (setFields d r) h2, hs]

theorem sidOf_applyMatching (d : MDoc) (rs : List MDoc)
    (hrs : ∀ r ∈ rs, recWFB r = true) :
    sidOf (applyMatching d rs) = sidOf d := by
  rw [applyMatching]
  apply sidOf_foldl_setFields
  intro r hr
  rw [List.mem_filter] at hr
  exact ⟨hrs r hr.1, by simpa using hr.2⟩

theorem foldl_setFields_flatten (l : List MDoc) :
    ∀ d : MDoc, l.foldl setFields d = setFields d l.flatten := by
  induction l with
  | nil => intro d; rfl
  | cons r t ih =>
    intro d
    rw [List.foldl_cons, ih, List.flatten_cons, setFields_append]

theorem applyMatching_idem (d : MDoc) (rs : List MDoc)
    (hrs : ∀ r ∈ rs, recWFB r = true) :
    applyMatching (applyMatching d rs) rs = applyMatching d rs := by
  have hsid := sidOf_applyMatching d rs hrs
  conv_lhs => rw [applyMatching, hsid]
  rw [applyMatching]
  simp only [foldl_setFields_flatten]
  exact setFields_absorb _ _

theorem applyMatching_nil (d : MDoc) : applyMatching d [] = d := rfl

theorem applyMatching_cons_match (d r : MDoc) (t : List MDoc) (hr : recWFB r = true)
    (hm : sidOf r = sidOf d) :
    applyMatching d (r :: t) = applyMatching (setFields d r) t := by
  rw [applyMatching, List.filter_cons, if_pos (by simpa using hm), List.foldl_cons,
    applyMatching, sidOf_setFields_match hr hm]

theorem applyMatching_cons_skip (d r : MDoc) (t : List MDoc) (hm : ¬ sidOf r = sidOf d) :
    applyMatching d (r :: t) = applyMatching d t := by
  rw [applyMatching, List.filter_cons, if_neg (by simpa using hm), applyMatching]

theorem storeUnique_tail {d : MDoc} {ds : List MDoc} (h : StoreUnique (d :: ds)) :
    StoreUnique ds := by
  rw [StoreUnique, List.filterMap_cons] at h
  cases hd : sidOf d with
  | none => rw [hd] at h; exact h
  | some k => rw [hd] at h; exact (List.nodup_cons.mp h).2

theorem upsertGo_not_mem (r : MDoc) (k : String) :
    ∀ s : List MDoc, k ∉ s.filterMap sidOf →
      upsertGo r k s = s ++ [setFields [(ridKey, k)] r] := by
  intro s
  induction s with
  | nil => intro _; rfl
  | cons d ds ih =>
    intro hk
    have hd : ¬ sidOf d = some k := fun hc =>
      hk (List.mem_filterMap.mpr ⟨d, List.mem_cons_self _ _, hc⟩)
    have hk' : k ∉ ds.filterMap sidOf := by
      intro hc
      rw [List.mem_filterMap] at hc
      obtain ⟨a, ha, hak⟩ := hc
      exact hk (List.mem_filterMap.mpr ⟨a, List.mem_cons_of_mem _ ha, hak⟩)
    rw [upsertGo, if_neg hd, ih hk']
    rfl

theorem upsertGo_mem (r : MDoc) (k : String) :
    ∀ s : List MDoc, StoreUnique s → k ∈ s.filterMap sidOf →
      upsertGo r k s = s.map fun d => if sidOf d = some k then setFields d r else d := by
  intro s
  induction s with
  | nil => intro _ h; simp at h
  | cons d ds ih =>
    intro hu hk
    rw [upsertGo, List.map_cons]
    by_cases hd : sidOf d = some k
    · rw [if_pos hd, if_pos hd]
      congr 1
      have hnk : k ∉ ds.filterMap sidOf := by
        rw [StoreUnique, List.filterMap_cons, hd] at hu
        exact (List.nodup_cons.mp hu).1
      symm
      apply map_id_of_eq
      intro x hx
      rw [if_neg fun hc => hnk (List.mem_filterMap.mpr ⟨x, hx, hc⟩)]
    · rw [if_neg hd, if_neg hd]
      congr 1
      apply ih (storeUnique_tail hu)
      rw [List.filterMap_cons] at hk
      cases hsd : sidOf d with
      | none => rw [hsd] at hk; exact hk
      | some k' =>
        rw [hsd] at hk
        rcases List.mem_cons.mp hk with rfl | hk'
        · exact absurd hsd hd
        · exact hk'

theorem bulkUpsertOne_some {r : MDoc} {k : String} (s : List MDoc) (h : sidOf r = some k) :
    bulkUpsertOne s r = upsertGo r k s := by
  rw [bulkUpsertOne]
  simp only [h]

theorem runOps_nil (s : List MDoc) : runOps s [] = s := rfl

theorem runOps_cons (s : List MDoc) (r : MDoc) (t : List MDoc) :
    runOps s (r :: t) = runOps (bulkUpsertOne s r) t := rfl

theorem runOps_append (s : List MDoc) (a b : List MDoc) :
    runOps s (a ++ b) = runOps (runOps s a) b :=
  List.foldl_append _ _ _ _

theorem newIds_nil (seen : List String) : newIds seen [] = [] := rfl

theorem newIds_cons_none {r : MDoc} (seen : List String) (t : List MDoc)
    (h : sidOf r = none) : newIds seen (r :: t) = newIds seen t := by
  rw [newIds]
  simp only [h]

theorem newIds_cons_some {r : MDoc} {k : String} (seen : List String) (t : List MDoc)
    (h : sidOf r = some k) :
    newIds seen (r :: t) =
      if k ∈ seen then newIds seen t else k :: newIds (k :: seen) t := by
  rw [newIds]
  simp only [h]

theorem newIds_not_mem_seen :
    ∀ (t : List MDoc) (seen : List String) (k' : String),
      k' ∈ newIds seen t → k' ∉ seen := by
  intro t
  induction t with
  | nil =>
    intro seen k' h
    rw [newIds_nil] at h
    cases h
  | cons r t' ih =>
    intro seen k' h
    cases hs : sidOf r with
    | none =>
      rw [newIds_cons_none seen t' hs] at h
      exact ih seen k' h
    | some k =>
      rw [newIds_cons_some seen t' hs] at h
      by_cases hk : k ∈ seen
      · rw [if_pos hk] at h
        exact ih seen k' h
      · rw [if_neg hk] at h
        rcases List.mem_cons.mp h with rfl | h'
        · exact hk
        · intro hc
          exact ih (k :: seen) k' h' (List.mem_cons_of_mem _ hc)

theorem newIds_congr_seen :
    ∀ (t : List MDoc) (s1 s2 : List String), (∀ x, x ∈ s1 ↔ x ∈ s2) →
      newIds s1 t = newIds s2 t := by
  intro t
  induction t with
  | nil => intro s1 s2 _; rfl
  | cons r t' ih =>
    intro s1 s2 h
    cases hs : sidOf r with
    | none => rw [newIds_cons_none s1 t' hs, newIds_cons_none s2 t' hs, ih s1 s2 h]
    | some k =>
      rw [newIds_cons_some s1 t' hs, newIds_cons_some s2 t' hs]
      by_cases hk : k ∈ s1
      · rw [if_pos hk, if_pos ((h k).mp hk), ih s1 s2 h]
      · rw [if_neg hk, if_neg fun hc => hk ((h k).mpr hc),
          ih (k :: s1) (k :: s2) fun x => by rw [List.mem_cons, List.mem_cons, h x]]

theorem newIds_nodup : ∀ (t : List MDoc) (seen : List String), (newIds seen t).Nodup := by
  intro t
  induction t with
  | nil => intro seen; exact List.nodup_nil
  | cons r t' ih =>
    intro seen
    cases hs : sidOf r with
    | none => rw [newIds_cons_none seen t' hs]; exact ih seen
    | some k =>
      rw [newIds_cons_some seen t' hs]
      by_cases hk : k ∈ seen
      · rw [if_pos hk]; exact ih seen
      · rw [if_neg hk]
        refine List.nodup_cons.mpr ⟨?_, ih (k :: seen)⟩
        intro hc
        exact newIds_not_mem_seen t' (k :: seen) k hc (List.mem_cons_self _ _)

theorem mem_newIds_of_not_seen :
    ∀ (t : List MDoc) (seen : List String) (r : MDoc) (k : String),
      r ∈ t → sidOf r = some k → k ∉ seen → k ∈ newIds seen t := by
  intro t
  induction t with
  | nil => intro seen r k h; cases h
  | cons r' t' ih =>
    intro seen r k hmem hk hns
    rcases List.mem_cons.mp hmem with rfl | hmem'
    · rw [newIds_cons_some seen t' hk, if_neg hns]
      exact List.mem_cons_self _ _
    · cases hs : sidOf r' with
      | none =>
        rw [newIds_cons_none seen t' hs]
        exact ih seen r k hmem' hk hns
      | some k2 =>
        rw [newIds_cons_some seen t' hs]
        by_cases hk2 : k2 ∈ seen
        · rw [if_pos hk2]
          exact ih seen r k hmem' hk hns
        · rw [if_neg hk2]
          by_cases hkk : k = k2
          · subst hkk
            exact List.mem_cons_self _ _
          · refine List.mem_cons_of_mem _ (ih (k2 :: seen) r k hmem' hk ?_)
            intro hc
            rcases List.mem_cons.mp hc with h1 | h2
            · exact hkk h1
            · exact hns h2

theorem newIds_eq_nil :
    ∀ (t : List MDoc) (seen : List String),
      (∀ r ∈ t, ∀ k, sidOf r = some k → k ∈ seen) → newIds seen t = [] := by
  intro t
  induction t with
  | nil => intro seen _; rfl
  | cons r t' ih =>
    intro seen h
    cases hs : sidOf r with
    | none =>
      rw [newIds_cons_none seen t' hs]
      exact ih seen fun x hx => h x (List.mem_cons_of_mem _ hx)
    | some k =>
      rw [newIds_cons_some seen t' hs,
        if_pos (h r (List.mem_cons_self _ _) k hs)]
      exact ih seen fun x hx => h x (List.mem_cons_of_mem _ hx)

theorem filterMap_map_own {α β γ : Type} (l : List α) (g : α → β) (f : β → Option γ) :
    (l.map g).filterMap f = l.filterMap fun x => f (g x) := by
  induction l with
  | nil => rfl
  | cons a t ih => rw [List.map_cons, List.filterMap_cons, List.filterMap_cons, ih]

theorem runOps_eq_runSpec :
    ∀ (rs : List MDoc) (s : List MDoc), StoreUnique s →
      (∀ r ∈ rs, recWFB r = true) → runOps s rs = runSpec s rs := by
  intro rs
  induction rs with
  | nil =>
    intro s hu hr
    rw [runOps_nil, runSpec, newIds_nil, List.map_nil, List.append_nil]
    symm
    apply map_id_of_eq
    intro x _
    rfl
  | cons r t ih =>
    intro s hu hr
    have hrW := hr r (List.mem_cons_self _ _)
    have hrt : ∀ x ∈ t, recWFB x = true := fun x hx => hr x (List.mem_cons_of_mem _ hx)
    obtain ⟨hnd, hsome⟩ := recWFB_parts hrW
    cases hrk : sidOf r with
    | none => rw [hrk] at hsome; simp at hsome
    | some k =>
    rw [runOps_cons, bulkUpsertOne_some s hrk]
    by_cases hmem : k ∈ s.filterMap sidOf
    · rw [upsertGo_mem r k s hu hmem]
      have hstep : ∀ d ∈ s, sidOf (if sidOf d = some k then setFields d r else d) = sidOf d := by
        intro d _
        by_cases hd : sidOf d = some k
        · rw [if_pos hd]
          exact sidOf_setFields_match hrW (by rw [hrk, hd])
        · rw [if_neg hd]
      have hsids : ((s.map fun d => if sidOf d = some k then setFields d r else d).filterMap
          sidOf) = s.filterMap sidOf := by
        rw [filterMap_map_own]
        exact filterMap_congr_own s _ _ fun d hd => by rw [hstep d hd]
      have hu' : StoreUnique (s.map fun d => if sidOf d = some k then setFields d r else d) := by
        rw [StoreUnique, hsids]
        exact hu
      rw [ih _ hu' hrt]
      rw [runSpec, runSpec, List.map_map, hsids]
      congr 1
      · apply map_congr_own
        intro d hd
        show applyMatching (if sidOf d = some k then setFields d r else d) t
            = applyMatching d (r :: t)
        by_cases hdk : sidOf d = some k
        · rw [if_pos hdk, applyMatching_cons_match d r t hrW (by rw [hrk, hdk])]
        · rw [if_neg hdk,
            applyMatching_cons_skip d r t (by rw [hrk]; exact fun hc => hdk hc.symm)]
      · rw [newIds_cons_some _ t hrk, if_pos hmem]
        apply map_congr_own
        intro k' hk'
        have hk'ns : k' ∉ s.filterMap sidOf := newIds_not_mem_seen t _ k' hk'
        have hkk : ¬ sidOf r = sidOf [(ridKey, k')] := by
          rw [hrk, sidOf_key]
          intro hc
          injection hc with hc2
          exact hk'ns (hc2 ▸ hmem)
        rw [applyMatching_cons_skip _ r t hkk]
    · rw [upsertGo_not_mem r k s hmem]
      have hfsid : sidOf (setFields [(ridKey, k)] r) = some k := by
        rw [show sidOf (setFields [(ridKey, k)] r)
            = getVal (setFields [(ridKey, k)] r) ridKey from rfl]
        exact getVal_setFields_of_nodup r _ hrk hnd
      have hsids2 : ((s ++ [setFields [(ridKey, k)] r]).filterMap sidOf)
          = s.filterMap sidOf ++ [k] := by
        rw [List.filterMap_append]
        congr 1
        rw [List.filterMap_cons]
        simp only [hfsid, List.filterMap_nil]
      have hu' : StoreUnique (s ++ [setFields [(ridKey, k)] r]) := by
        rw [StoreUnique, hsids2]
        apply List.Nodup.append hu (List.nodup_singleton k)
        intro x hx hx2
        rw [List.mem_singleton] at hx2
        subst hx2
        exact hmem hx
      rw [ih _ hu' hrt]
      rw [runSpec, runSpec, hsids2, List.map_append, List.map_cons, List.map_nil]
      rw [newIds_congr_seen t (s.filterMap sidOf ++ [k]) (k :: s.filterMap sidOf)
        fun x => by rw [List.mem_append, List.mem_singleton, List.mem_cons, or_comm]]
      rw [newIds_cons_some _ t hrk, if_neg hmem, List.map_cons]
      rw [List.append_assoc, List.singleton_append]
      congr 1
      · apply map_congr_own
        intro d hd
        symm
        apply applyMatching_cons_skip
        rw [hrk]
        intro hc
        exact hmem (List.mem_filterMap.mpr ⟨d, hd, hc.symm⟩)
      · congr 1
        · symm
          rw [applyMatching_cons_match _ r t hrW (by rw [hrk, sidOf_key])]
        · apply map_congr_own
          intro k' hk'
          symm
          apply applyMatching_cons_skip
          rw [hrk, sidOf_key]
          intro hc
          injection hc with hc2
          exact newIds_not_mem_seen t _ k' hk'
            (by rw [← hc2]; exact List.mem_cons_self _ _)

theorem filterMap_some_own {α : Type} (l : List α) : (l.filterMap fun x => some x) = l := by
  induction l with
  | nil => rfl
  | cons a t ih =>
    show a :: (t.filterMap fun x => some x) = a :: t
    rw [ih]

theorem sids_runSpec (s rs : List MDoc) (hrs : ∀ r ∈ rs, recWFB r = true) :
    (runSpec s rs).filterMap sidOf
      = s.filterMap sidOf ++ newIds (s.filterMap sidOf) rs := by
  rw [runSpec, List.filterMap_append, filterMap_map_own, filterMap_map_own]
  congr 1
  · exact filterMap_congr_own s _ _ fun d _ => by rw [sidOf_applyMatching d rs hrs]
  · have hpt : ∀ k' ∈ newIds (s.filterMap sidOf) rs,
        sidOf (applyMatching [(ridKey, k')] rs) = some k' := by
      intro k' _
      rw [sidOf_applyMatching _ rs hrs, sidOf_key]
    rw [filterMap_congr_own _ _ _ hpt, filterMap_some_own]

theorem storeUnique_runSpec (s rs : List MDoc) (hu : StoreUnique s)
    (hrs : ∀ r ∈ rs, recWFB r = true) : StoreUnique (runSpec s rs) := by
  rw [StoreUnique, sids_runSpec s rs hrs]
  apply List.Nodup.append hu (newIds_nodup rs _)
  intro x hx hx2
  exact newIds_not_mem_seen rs _ x hx2 hx

theorem runSpec_map_absorb (s rs : List MDoc) (hrs : ∀ r ∈ rs, recWFB r = true) :
    ((runSpec s rs).map fun d => applyMatching d rs) = runSpec s rs := by
  rw [runSpec, List.map_append, List.map_map, List.map_map]
  congr 1
  · apply map_congr_own
    intro d _
    exact applyMatching_idem d rs hrs
  · apply map_congr_own
    intro k' _
    exact applyMatching_idem _ rs hrs

theorem mem_sids_runSpec (s rs : List MDoc) (hrs : ∀ r ∈ rs, recWFB r = true)
    (r : MDoc) (hr : r ∈ rs) (k : String) (hk : sidOf r = some k) :
    k ∈ (runSpec s rs).filterMap sidOf := by
  rw [sids_runSpec s rs hrs, List.mem_append]
  by_cases hm : k ∈ s.filterMap sidOf
  · exact Or.inl hm
  · exact Or.inr (mem_newIds_of_not_seen rs _ r k hr hk hm)

theorem runOps_runSpec_fixed (s rs : List MDoc) (hu : StoreUnique s)
    (hrs : ∀ r ∈ rs, recWFB r = true) :
    runOps (runSpec s rs) rs = runSpec s rs := by
  rw [runOps_eq_runSpec rs _ (storeUnique_runSpec s rs hu hrs) hrs]
  rw [runSpec]
  rw [newIds_eq_nil rs _ fun x hx k hk => mem_sids_runSpec s rs hrs x hx k hk]
  rw [List.map_nil, List.append_nil]
  exact runSpec_map_absorb s rs hrs

theorem length_filter_sid_unique :
    ∀ s : List MDoc, StoreUnique s → ∀ k : String,
      (s.filter fun d => decide (sidOf d = some k)).length
        = if k ∈ s.filterMap sidOf then 1 else 0 := by
  intro s
  induction s with
  | nil => intro _ k; simp
  | cons d ds ih =>
    intro hu k
    cases hd : sidOf d with
    | none =>
      rw [List.filter_cons, List.filterMap_cons]
      simp only [hd]
      rw [if_neg (by simp)]
      exact ih (storeUnique_tail hu) k
    | some k' =>
      rw [List.filter_cons, List.filterMap_cons]
      simp only [hd]
      by_cases hkk : k' = k
      · rw [if_pos (by simp [hkk]), List.length_cons, ih (storeUnique_tail hu) k]
        have hnk : k ∉ ds.filterMap sidOf := by
          have hu2 := hu
          rw [StoreUnique, List.filterMap_cons] at hu2
          simp only [hd] at hu2
          rw [← hkk]
          exact (List.nodup_cons.mp hu2).1
        rw [if_neg hnk, if_pos (by rw [← hkk]; exact List.mem_cons_self _ _)]
      · rw [if_neg (by simp [hkk]), ih (storeUnique_tail hu) k]
        by_cases hm : k ∈ ds.filterMap sidOf
        · rw [if_pos hm, if_pos (List.mem_cons_of_mem _ hm)]
        · have hnc : k ∉ k' :: ds.filterMap sidOf := by
            intro hc
            rcases List.mem_cons.mp hc with h1 | h2
            · exact hkk h1.symm
            · exact hm h2
          rw [if_neg hm, if_neg hnc]

theorem length_filter_mem_nodup :
    ∀ l : List String, l.Nodup → ∀ k : String,
      (l.filter fun x => decide (x = k)).length = if k ∈ l then 1 else 0 := by
  intro l
  induction l with
  | nil => intro _ k; simp
  | cons a t ih =>
    intro hn k
    rw [List.filter_cons]
    by_cases hak : a = k
    · subst hak
      rw [if_pos (by simp), List.length_cons, ih (List.nodup_cons.mp hn).2 a,
        if_neg (List.nodup_cons.mp hn).1, if_pos (List.mem_cons_self _ _)]
    · rw [if_neg (by simp [hak]), ih (List.nodup_cons.mp hn).2 k]
      by_cases hm : k ∈ t
      · rw [if_pos hm, if_pos (List.mem_cons_of_mem _ hm)]
      · have hnc : k ∉ a :: t := by
          intro hc
          rcases List.mem_cons.mp hc with h1 | h2
          · exact hak h1.symm
          · exact hm h2
        rw [if_neg hm, if_neg hnc]

theorem length_filter_key_runSpec (s rs : List MDoc) (hu : StoreUnique s)
    (hrs : ∀ r ∈ rs, recWFB r = true) (r : MDoc) (hr : r ∈ rs) (k : String)
    (hk : sidOf r = some k) :
    ((runSpec s rs).filter fun d => decide (sidOf d = some k)).length = 1 := by
  rw [runSpec, List.filter_append, List.length_append]
  rw [length_filter_map_own, length_filter_map_own]
  rw [filter_congr_own s _ (fun d => decide (sidOf d = some k))
    fun d _ => by rw [sidOf_applyMatching d rs hrs]]
  rw [filter_congr_own (newIds (s.filterMap sidOf) rs) _ (fun k' => decide (k' = k))
    fun k' _ => by rw [sidOf_applyMatching _ rs hrs, sidOf_key]; simp]
  rw [length_filter_sid_unique s hu k]
  rw [length_filter_mem_nodup _ (newIds_nodup rs _) k]
  by_cases hm : k ∈ s.filterMap sidOf
  · rw [if_pos hm, if_neg fun hc => newIds_not_mem_seen rs _ k hc hm]
  · rw [if_neg hm, if_pos (mem_newIds_of_not_seen rs _ r k hr hk hm)]

theorem chunksGo_succ_cons (bs n : ℕ) (c : MDoc) (ls : List MDoc) :
    chunksGo bs (n + 1) (c :: ls)
      = (c :: ls).take bs :: chunksGo bs n ((c :: ls).drop bs) := rfl

theorem chunksGo_flatten (bs : ℕ) (hbs : 0 < bs) :
    ∀ (fuel : ℕ) (l : List MDoc), l.length ≤ fuel → (chunksGo bs fuel l).flatten = l := by
  intro fuel
  induction fuel with
  | zero =>
    intro l hl
    have hnil : l = [] := List.eq_nil_of_length_eq_zero (by omega)
    subst hnil
    rfl
  | succ n ih =>
    intro l hl
    cases l with
    | nil => rfl
    | cons c ls =>
      have hlen : ((c :: ls).drop bs).length ≤ n := by
        rw [List.length_drop]
        simp only [List.length_cons] at hl ⊢
        omega
      rw [chunksGo_succ_cons, List.flatten_cons, ih _ hlen]
      exact List.take_append_drop bs (c :: ls)

theorem loadBatches_eq_runOps :
    ∀ (cs : List (List MDoc)) (st : List MDoc),
      (∀ b ∈ cs, ∀ r ∈ b, (sidOf r).isSome = true) →
      loadBatches st cs = runOps st cs.flatten := by
  intro cs
  induction cs with
  | nil => intro st _; rfl
  | cons b more ih =>
    intro st h
    rw [loadBatches, if_pos (List.all_eq_true.mpr (h b (List.mem_cons_self _ _)))]
    rw [ih _ fun b' hb' => h b' (List.mem_cons_of_mem _ hb')]
    rw [List.flatten_cons, runOps_append]

theorem load_posts_eq_runOps (bs : ℕ) (hbs : 0 < bs) (s rs : List MDoc)
    (hrs : ∀ r ∈ rs, recWFB r = true) : load_posts bs s rs = runOps s rs := by
  rw [load_posts, chunks]
  have hfl : (chunksGo bs rs.length rs).flatten = rs :=
    chunksGo_flatten bs hbs rs.length rs (le_refl _)
  have hok : ∀ b ∈ chunksGo bs rs.length rs, ∀ r ∈ b, (sidOf r).isSome = true := by
    intro b hb r hr
    have hrrs : r ∈ rs := by
      rw [← hfl]
      exact List.mem_flatten.mpr ⟨b, hb, hr⟩
    exact (recWFB_parts (hrs r hrrs)).2
  rw [loadBatches_eq_runOps _ s hok, hfl]

/-- Claim C7: with a batch size ≥ 1, a store obeying the collection's unique
`reddit_id` index, and records that are dictionaries carrying a `reddit_id`
key, running the batch upsert (`load_posts` / `load_comments`) twice with
the same records yields exactly the same stored documents as running it
once, and afterwards exactly one stored document carries any given record's
key — no duplicates are created. -/
theorem load_upsert_idempotent (bs : ℕ) (store rs : List MDoc)
    (hbs : 0 < bs) (hu : StoreUnique store) (hrs : ∀ r ∈ rs, recWFB r = true) :
    load_posts bs (load_posts bs store rs) rs = load_posts bs store rs ∧
    load_comments bs (load_comments bs store rs) rs = load_comments bs store rs ∧
    (∀ r ∈ rs, ∀ k : String, sidOf r = some k →
      ((load_posts bs store rs).filter fun d => decide (sidOf d = some k)).length = 1) := by
  have hlc : ∀ s l : List MDoc, load_comments bs s l = load_posts bs s l := fun _ _ => rfl
  have h1 : load_posts bs store rs = runSpec store rs := by
    rw [load_posts_eq_runOps bs hbs store rs hrs, runOps_eq_runSpec rs store hu hrs]
  have hidem : load_posts bs (load_posts bs store rs) rs = load_posts bs store rs := by
    rw [h1, load_posts_eq_runOps bs hbs _ rs hrs, runOps_runSpec_fixed store rs hu hrs]
  refine ⟨hidem, ?_, ?_⟩
  · rw [hlc, hlc, hidem]
  · intro r hr k hk
    rw [h1]
    exact length_filter_key_runSpec store rs hu hrs r hr k hk

theorem load_upsert_idempotent_witness :
    ((0 : ℕ) < 2 ∧ StoreUnique ([] : List MDoc) ∧ (∀ r ∈ recsAB, recWFB r = true)) ∧
    load_posts 2 (load_posts 2 [] recsAB) recsAB = load_posts 2 [] recsAB ∧
    ((load_posts 2 [] recsAB).filter fun d => decide (sidOf d = some keyA)).length = 1 :=
  ⟨⟨by decide, by rw [StoreUnique]; decide, by decide⟩,
   (load_upsert_idempotent 2 [] recsAB (by decide) (by rw [StoreUnique]; decide)
     (by decide)).1,
   (load_upsert_idempotent 2 [] recsAB (by decide) (by rw [StoreUnique]; decide)
     (by decide)).2.2 recA (by decide) keyA (by decide)⟩

theorem get_stats_detached_witness :
    (0 < ([extractor_init_stats] : StatsHeap).length ∧
      (get_stats [extractor_init_stats] 0).2 ≠ 0) ∧
    (0 < ([loader_init_stats] : StatsHeap).length ∧
      (get_stats [loader_init_stats] 0).2 ≠ 0) :=
  ⟨⟨by decide, (get_stats_detached [extractor_init_stats] 0 (by decide)).1⟩,
   ⟨by decide, (get_stats_detached [loader_init_stats] 0 (by decide)).1⟩⟩

end RedditFlow
